import Mathlib

/-!
Verification development for the mymickiewicz data preprocessor
(`src/index.ts`).  The source is shallowly embedded: JSON payloads become
an inductive `Json` type, the io-ts codecs become decoding functions into
typed structures, the HTTP transport becomes an explicit
`String → Nat → Except String AxiosResponse` parameter (url and timeout in
milliseconds), and `makeConcurrentHttpsReqs` becomes a pure function
returning the accumulator together with the trace of progress-callback
increments.
-/

namespace Mickiewicz

/-- Untyped deserialized JSON values, the domain of the TypeScript `any`
payloads the program manipulates. -/
inductive Json where
  | str : String → Json
  | num : Int → Json
  | bool : Bool → Json
  | null : Json
  | arr : List Json → Json
  | obj : List (String × Json) → Json

/-- First-match field lookup in a JSON object's field list (JS objects
cannot carry duplicate keys, so the first match is the only one). -/
def lookupField : List (String × Json) → String → Option Json
  | [], _ => none
  | (k, v) :: rest, key => if k = key then some v else lookupField rest key

/-- Field access on a JSON value: only objects have fields. -/
def Json.getField : Json → String → Option Json
  | Json.obj fields, key => lookupField fields key
  | _, _ => none

/-- The `config` literal at the top of `src/index.ts`. -/
structure Config where
  textsLang : String
  textsAuthor : String
  reqConcurrency : Nat
  apiBaseUrl : String

/-- Source: `config = { textsLang: 'pol', textsAuthor: 'adam-mickiewicz',
reqConcurrency: 10, apiBaseUrl: 'https://wolnelektury.pl/api' }`. -/
def config : Config :=
  { textsLang := "pol"
    textsAuthor := "adam-mickiewicz"
    reqConcurrency := 10
    apiBaseUrl := "https://wolnelektury.pl/api" }

/-- One entry of the author works list, as typed by
`TextsDataCodec = t.array(t.type({ slug: t.string }))`. -/
structure TextEntry where
  slug : String
deriving DecidableEq

/-- Decode a single works-list entry: the entry must be an object whose
`slug` field is a string (`t.type({ slug: t.string })`); extra fields are
not inspected. -/
def decodeTextEntry (j : Json) : Option TextEntry :=
  match j.getField "slug" with
  | some (Json.str s) => some ⟨s⟩
  | _ => none

/-- Decode every element of a JSON array as a works-list entry
(`t.array` semantics: all-or-nothing). -/
def decodeEntries : List Json → Option (List TextEntry)
  | [] => some []
  | x :: xs =>
    match decodeTextEntry x, decodeEntries xs with
    | some e, some es => some (e :: es)
    | _, _ => none

/-- `TextsDataCodec.decode`: the payload must be an array each of whose
elements carries a string `slug` field. -/
def TextsDataCodec.decode (j : Json) : Option (List TextEntry) :=
  match j with
  | Json.arr xs => decodeEntries xs
  | _ => none

/-- The typed view produced by `TextDetailCodec`. -/
structure TextDetail where
  language : String
  children : List String
  txt : String
deriving DecidableEq

/-- Decode a JSON array as a list of strings (`t.array(t.string)`
semantics: every element must be a string, all-or-nothing). -/
def decodeStrings : List Json → Option (List String)
  | [] => some []
  | Json.str s :: xs =>
    match decodeStrings xs with
    | some ss => some (s :: ss)
    | none => none
  | _ => none

/-- `TextDetailCodec.decode`: the payload must carry a `language` field
equal to the literal `config.textsLang`, a `children` field that is an
array of strings of length 0 (the `t.refinement`), and a string `txt`
field.  Extra fields are not inspected (io-ts `t.type` ignores unknown
keys). -/
def TextDetailCodec.decode (j : Json) : Option TextDetail :=
  match j.getField "language", j.getField "children", j.getField "txt" with
  | some (Json.str lang), some (Json.arr cs), some (Json.str t) =>
    if lang = config.textsLang then
      match decodeStrings cs with
      | some children => if children.length = 0 then some ⟨lang, children, t⟩ else none
      | none => none
    else none
  | _, _, _ => none

/-- The resolved value of one `axios.get` call, as consumed by the two
reduction functions: `url` models `currRes.config.url` (the effective
request URL) and `data` models `currRes.data` (the raw body). -/
structure AxiosResponse where
  url : String
  data : Json

/-- The fixed per-request timeout hardcoded in the `axios.get` call inside
`makeConcurrentHttpsReqs` (line 121 of `src/index.ts`): every batched
request, whether a detail-filtering request or a body-download request,
carries this same 10000 ms timeout. -/
def batchReqTimeoutMs : Nat := 10000

/-- The timeout of the top-level author works-list request
(`axios.get(.../authors/.../books/, { timeout: 5000 })`). -/
def worksListTimeoutMs : Nat := 5000

/-- One iteration of the loop
`for (let i = 0; i < urls.length; i += concurrency)`: slice off
`urls.slice(i, i + concurrency)` and continue on the rest.  The recursion
is driven by an explicit iteration budget so the function is structurally
recursive and computable; `mkBatches` supplies the list length as budget,
which suffices because each iteration with `c ≥ 1` drops at least one
element.  For `c = 0` the source loop never advances and diverges; that
case is modelled separately by the loop-index iteration (`loopIndex`
below), and this total function returns `[]` there. -/
def mkBatchesAux (c : Nat) : Nat → List α → List (List α)
  | _, [] => []
  | 0, _ :: _ => []
  | fuel + 1, u :: us =>
    if c = 0 then []
    else (u :: us).take c :: mkBatchesAux c fuel ((u :: us).drop c)

/-- The consecutive batches the batch loop of `makeConcurrentHttpsReqs`
slices off the target list. -/
def mkBatches (c : Nat) (urls : List α) : List (List α) :=
  mkBatchesAux c urls.length urls

/-- `Promise.all` over one batch of URLs: every request is issued; the
joint promise resolves to the list of responses when all succeed and
rejects with a request's error when any fails (this deterministic model
reports the first error in batch order). -/
def fetchAll (fetchB : String → Except String AxiosResponse) :
    List String → Except String (List AxiosResponse)
  | [] => Except.ok []
  | u :: us =>
    match fetchB u with
    | Except.error e => Except.error e
    | Except.ok r =>
      match fetchAll fetchB us with
      | Except.error e => Except.error e
      | Except.ok rs => Except.ok (r :: rs)

/-- The batch loop body: batches are awaited strictly in sequence and their
results appended to `reqResults`; a failing batch aborts the whole loop
(the `await` rethrows the rejection). -/
def runBatchReqs (fetchB : String → Except String AxiosResponse) :
    List (List String) → Except String (List AxiosResponse)
  | [] => Except.ok []
  | b :: bs =>
    match fetchAll fetchB b with
    | Except.error e => Except.error e
    | Except.ok rs =>
      match runBatchReqs fetchB bs with
      | Except.error e => Except.error e
      | Except.ok rest => Except.ok (rs ++ rest)

/-- Number of `axios.get` calls issued by the batch loop: all requests of a
batch are issued together (`Promise.all` starts every request before any
settles); batches after a failed batch are never reached. -/
def reqCount (fetchB : String → Except String AxiosResponse) :
    List (List String) → Nat
  | [] => 0
  | b :: bs =>
    b.length +
      match fetchAll fetchB b with
      | Except.ok _ => reqCount fetchB bs
      | Except.error _ => 0

/-- Shallow embedding of `makeConcurrentHttpsReqs`.  `http` is the
transport (`axios.get` with an explicit timeout argument); `processData`
and `formatUrl` are the optional reduction and URL-formatting parameters.
The accumulator element type is `Json`, the embedding of the source's
`any`.  Instead of invoking the optional `updateProgress` callback the
model returns, alongside the accumulator, the exact sequence of increments
(`urlBatch.length`, once per batch, in batch order) the callback receives
when supplied. -/
def makeConcurrentHttpsReqs
    (http : String → Nat → Except String AxiosResponse)
    (urls : List String) (concurrency : Nat)
    (processData : Option (List Json → AxiosResponse → List Json))
    (formatUrl : Option (String → String)) :
    Except String (List Json × List Nat) :=
  let batches := mkBatches concurrency urls
  match runBatchReqs (fun url => http ((formatUrl.getD id) url) batchReqTimeoutMs) batches with
  | Except.error e => Except.error e
  | Except.ok reqResults =>
    let final : List Json :=
      match processData with
      | some f => reqResults.foldl f []
      | none => reqResults.map AxiosResponse.data
    Except.ok (final, batches.map List.length)

/-- The detail-filtering reduction function passed to the first
`makeConcurrentHttpsReqs` call: decode the body with `TextDetailCodec` and
push `right.txt` on success, leave the accumulator unchanged on failure. -/
def filterReduce (acc : List Json) (currRes : AxiosResponse) : List Json :=
  match TextDetailCodec.decode currRes.data with
  | some d => acc ++ [Json.str d.txt]
  | none => acc

/-- Final path segment of a URL, `url.split('/').pop()`. -/
def lastSegment (url : String) : String := (url.splitOn "/").getLastD ""

/-- The download-phase reduction function: push a pending file write (file
named after the URL's last path segment, content the raw body). -/
def writeReduce (acc : List Json) (currRes : AxiosResponse) : List Json :=
  acc ++ [Json.obj [(lastSegment currRes.url, currRes.data)]]

/-- JS string coercion of the accumulator entries fed back as URLs to the
download call (they are exactly the `txt` strings `filterReduce` pushed). -/
def jsonAsString : Json → String
  | Json.str s => s
  | _ => ""

/-- URL of the author works-list request. -/
def worksListUrl : String :=
  config.apiBaseUrl ++ "/authors/" ++ config.textsAuthor ++ "/books/"

/-- The `formatUrl` function of the detail-filtering call:
`(slug) => apiBaseUrl/books/slug/`. -/
def fmtDetailUrl (slug : String) : String :=
  config.apiBaseUrl ++ "/books/" ++ slug ++ "/"

/-- Externally visible effects of one run of the main IIFE. -/
structure RunEffects where
  dirCreated : Bool
  httpReqs : Nat
  filesWritten : Nat
deriving DecidableEq

/-- The effects of a run that touches nothing. -/
def noEffects : RunEffects := ⟨false, 0, 0⟩

/-- Shallow embedding of the main IIFE of `src/index.ts`.  `dirExists`
is the result of `fs.existsSync(outputRawPath)` at the start of the run;
`http` is the transport.  Returns the run's externally visible effects
(directory creation, HTTP request count, file-write count) together with
its outcome (normal completion or a thrown error). -/
def mainIIFE (dirExists : Bool)
    (http : String → Nat → Except String AxiosResponse) :
    RunEffects × Except String Unit :=
  if dirExists then (noEffects, Except.ok ())
  else
    match http worksListUrl worksListTimeoutMs with
    | Except.error e => (⟨true, 1, 0⟩, Except.error e)
    | Except.ok worksRes =>
      match TextsDataCodec.decode worksRes.data with
      | none => (⟨true, 1, 0⟩, Except.error "invalid texts data req response format")
      | some entries =>
        let slugs := entries.map TextEntry.slug
        let fetchB := fun u => http u batchReqTimeoutMs
        let nFilter := reqCount (fun u => fetchB (fmtDetailUrl u))
          (mkBatches config.reqConcurrency slugs)
        match makeConcurrentHttpsReqs http slugs config.reqConcurrency
            (some filterReduce) (some fmtDetailUrl) with
        | Except.error e => (⟨true, 1 + nFilter, 0⟩, Except.error e)
        | Except.ok (txtUrlsJ, _) =>
          let txtUrls := txtUrlsJ.map jsonAsString
          let nDown := reqCount fetchB (mkBatches config.reqConcurrency txtUrls)
          match makeConcurrentHttpsReqs http txtUrls config.reqConcurrency
              (some writeReduce) none with
          | Except.error e => (⟨true, 1 + nFilter + nDown, 0⟩, Except.error e)
          | Except.ok (writes, _) =>
            (⟨true, 1 + nFilter + nDown, writes.length⟩, Except.ok ())

/-- Timeout carried by each request of the detail-filtering (metadata
lookup) call site: that call goes through `makeConcurrentHttpsReqs`, whose
`axios.get` hardcodes `timeout: 10000`; the call site passes no timeout of
its own. -/
def detailFilterTimeoutMs : Nat := batchReqTimeoutMs

/-- Timeout carried by each request of the body-download call site: that
call also goes through `makeConcurrentHttpsReqs` and therefore carries the
same hardcoded `timeout: 10000`. -/
def bodyDownloadTimeoutMs : Nat := batchReqTimeoutMs

/-- Value of the loop index `i` of
`for (let i = 0; i < urls.length; i += concurrency)` before iteration `n`:
`i` starts at 0 and each iteration adds `concurrency` (a JS number, which
may be zero or negative, hence `Int`). -/
def loopIndex (concurrency : Int) (n : Nat) : Int := n * concurrency

/-- The batch loop terminates exactly when the guard `i < urls.length`
eventually fails. -/
def loopTerminates (len : Nat) (concurrency : Int) : Prop :=
  ∃ n : Nat, ¬ loopIndex concurrency n < (len : Int)

/-! Helper lemmas about the batching function. -/

theorem mkBatches_nil (c : Nat) : mkBatches c ([] : List α) = [] := rfl

theorem mkBatchesAux_fuel (c : Nat) (hc : c ≠ 0) (fuel : Nat) (l : List α)
    (h : l.length ≤ fuel) : mkBatchesAux c fuel l = mkBatches c l := by
  induction fuel using Nat.strong_induction_on generalizing l with
  | _ fuel ih =>
    match fuel, l with
    | f, [] => cases f <;> rfl
    | 0, u :: us => simp at h
    | fuel + 1, u :: us =>
      have hlen : ((u :: us).drop c).length ≤ us.length := by
        simp only [List.length_drop, List.length_cons]
        omega
      have hL : mkBatchesAux c fuel ((u :: us).drop c) = mkBatches c ((u :: us).drop c) :=
        ih fuel (by omega) _ (by simp only [List.length_drop, List.length_cons] at *; omega)
      have hR : mkBatchesAux c us.length ((u :: us).drop c) = mkBatches c ((u :: us).drop c) :=
        ih us.length (by simp only [List.length_cons] at h; omega) _ hlen
      show (if c = 0 then _ else _) = mkBatches c (u :: us)
      unfold mkBatches
      show _ = (if c = 0 then _ else _)
      rw [if_neg hc, if_neg hc, hL, hR]

theorem mkBatches_cons (hc : c ≠ 0) (u : α) (us : List α) :
    mkBatches c (u :: us) = (u :: us).take c :: mkBatches c ((u :: us).drop c) := by
  show mkBatchesAux c (us.length + 1) (u :: us) = _
  show (if c = 0 then _ else _) = _
  rw [if_neg hc]
  congr 1
  exact mkBatchesAux_fuel c hc us.length _ (by simp only [List.length_drop, List.length_cons]; omega)

theorem mkBatches_flatten (hc : c ≠ 0) (l : List α) :
    (mkBatches c l).flatten = l := by
  match l with
  | [] => rfl
  | u :: us =>
    rw [mkBatches_cons hc]
    have ih := mkBatches_flatten hc ((u :: us).drop c)
    simp only [List.flatten_cons, ih, List.take_append_drop]
termination_by l.length
decreasing_by
  simp only [List.length_drop, List.length_cons]
  omega

theorem mkBatches_length (hc : c ≠ 0) (l : List α) :
    (mkBatches c l).length = (l.length + c - 1) / c := by
  match l with
  | [] =>
    rw [mkBatches_nil]
    simp only [List.length_nil, List.length_nil]
    exact (Nat.div_eq_of_lt (by omega)).symm
  | u :: us =>
    rw [mkBatches_cons hc]
    have ih := mkBatches_length hc ((u :: us).drop c)
    simp only [List.length_cons, ih, List.length_drop]
    have hc1 : 0 < c := Nat.pos_of_ne_zero hc
    have h2 : us.length + 1 + c - 1 = us.length + c := by omega
    rw [h2, Nat.add_div_right _ hc1]
    rcases Nat.le_total (us.length + 1) c with hle | hge
    · have h3 : us.length + 1 - c + c - 1 = c - 1 := by omega
      rw [h3]
      have h4 : (c - 1) / c = 0 := Nat.div_eq_of_lt (by omega)
      have h5 : us.length / c = 0 := Nat.div_eq_of_lt (by omega)
      rw [h4, h5]
    · have h3 : us.length + 1 - c + c - 1 = us.length := by omega
      rw [h3]
termination_by l.length
decreasing_by
  simp only [List.length_drop, List.length_cons]
  omega

theorem mkBatches_mem (hc : c ≠ 0) (l : List α) :
    ∀ b ∈ mkBatches c l, b ≠ [] ∧ b.length ≤ c := by
  match l with
  | [] => rw [mkBatches_nil]; simp
  | u :: us =>
    rw [mkBatches_cons hc]
    intro b hb
    rcases List.mem_cons.mp hb with hb | hb
    · subst hb
      obtain ⟨c', rfl⟩ := Nat.exists_eq_succ_of_ne_zero hc
      constructor
      · rw [List.take_succ_cons]
        exact List.cons_ne_nil _ _
      · rw [List.length_take]
        exact Nat.min_le_left _ _
    · exact mkBatches_mem hc ((u :: us).drop c) b hb
termination_by l.length
decreasing_by
  simp only [List.length_drop, List.length_cons]
  omega

theorem mkBatches_dropLast (hc : c ≠ 0) (l : List α) :
    ∀ b ∈ (mkBatches c l).dropLast, b.length = c := by
  match l with
  | [] => rw [mkBatches_nil]; simp
  | u :: us =>
    rw [mkBatches_cons hc]
    intro b hb
    match hrest : mkBatches c ((u :: us).drop c) with
    | [] => rw [hrest] at hb; simp at hb
    | r :: rs =>
      rw [hrest, List.dropLast_cons₂] at hb
      rcases List.mem_cons.mp hb with hb | hb
      · subst hb
        have hne : (u :: us).drop c ≠ [] := by
          intro hnil
          rw [hnil, mkBatches_nil] at hrest
          exact List.cons_ne_nil _ _ hrest.symm
        have hlen : c < us.length + 1 := by simpa using hne
        rw [List.length_take, List.length_cons]
        omega
      · have := mkBatches_dropLast hc ((u :: us).drop c)
        rw [hrest] at this
        exact this b hb
termination_by l.length
decreasing_by
  simp only [List.length_drop, List.length_cons]
  omega

/-! Helper lemmas about the request phase. -/

theorem fetchAll_ok (fetchB : String → Except String AxiosResponse)
    (resp : String → AxiosResponse) (us : List String)
    (h : ∀ u ∈ us, fetchB u = Except.ok (resp u)) :
    fetchAll fetchB us = Except.ok (us.map resp) := by
  induction us with
  | nil => rfl
  | cons u us ih =>
    have hu := h u (List.mem_cons_self u us)
    have ht := ih fun v hv => h v (List.mem_cons_of_mem u hv)
    simp [fetchAll, hu, ht]

theorem runBatchReqs_ok (fetchB : String → Except String AxiosResponse)
    (resp : String → AxiosResponse) (bs : List (List String))
    (h : ∀ u ∈ bs.flatten, fetchB u = Except.ok (resp u)) :
    runBatchReqs fetchB bs = Except.ok (bs.flatten.map resp) := by
  induction bs with
  | nil => rfl
  | cons b bs ih =>
    have hb : fetchAll fetchB b = Except.ok (b.map resp) :=
      fetchAll_ok fetchB resp b fun u hu =>
        h u (by rw [List.flatten_cons]; exact List.mem_append.mpr (Or.inl hu))
    have ht := ih fun u hu =>
      h u (by rw [List.flatten_cons]; exact List.mem_append.mpr (Or.inr hu))
    simp [runBatchReqs, hb, ht]

theorem fetchAll_split (fetchB : String → Except String AxiosResponse)
    (e : String) (us : List String)
    (hall : ∀ v ∈ us, fetchB v = Except.error e ∨ ∃ r, fetchB v = Except.ok r) :
    fetchAll fetchB us = Except.error e ∨ ∃ rs, fetchAll fetchB us = Except.ok rs := by
  induction us with
  | nil => exact Or.inr ⟨[], rfl⟩
  | cons u us ih =>
    rcases hall u (List.mem_cons_self u us) with hu | ⟨r, hu⟩
    · left; simp [fetchAll, hu]
    · rcases ih (fun v hv => hall v (List.mem_cons_of_mem u hv)) with ht | ⟨rs, ht⟩
      · left; simp [fetchAll, hu, ht]
      · right; exact ⟨r :: rs, by simp [fetchAll, hu, ht]⟩

theorem fetchAll_error (fetchB : String → Except String AxiosResponse)
    (e : String) (us : List String)
    (hall : ∀ v ∈ us, fetchB v = Except.error e ∨ ∃ r, fetchB v = Except.ok r)
    (hex : ∃ v ∈ us, fetchB v = Except.error e) :
    fetchAll fetchB us = Except.error e := by
  induction us with
  | nil => simp at hex
  | cons u us ih =>
    rcases hall u (List.mem_cons_self u us) with hu | ⟨r, hu⟩
    · simp [fetchAll, hu]
    · obtain ⟨v, hv, hverr⟩ := hex
      rcases List.mem_cons.mp hv with rfl | hv
      · rw [hu] at hverr; exact absurd hverr (by simp)
      · have ht := ih (fun w hw => hall w (List.mem_cons_of_mem u hw)) ⟨v, hv, hverr⟩
        simp [fetchAll, hu, ht]

theorem runBatchReqs_error (fetchB : String → Except String AxiosResponse)
    (e : String) (bs : List (List String))
    (hall : ∀ v ∈ bs.flatten, fetchB v = Except.error e ∨ ∃ r, fetchB v = Except.ok r)
    (hex : ∃ v ∈ bs.flatten, fetchB v = Except.error e) :
    runBatchReqs fetchB bs = Except.error e := by
  induction bs with
  | nil => simp at hex
  | cons b bs ih =>
    have hallb : ∀ v ∈ b, fetchB v = Except.error e ∨ ∃ r, fetchB v = Except.ok r :=
      fun v hv => hall v (by rw [List.flatten_cons]; exact List.mem_append.mpr (Or.inl hv))
    have hallt : ∀ v ∈ bs.flatten, fetchB v = Except.error e ∨ ∃ r, fetchB v = Except.ok r :=
      fun v hv => hall v (by rw [List.flatten_cons]; exact List.mem_append.mpr (Or.inr hv))
    obtain ⟨v, hv, hverr⟩ := hex
    rw [List.flatten_cons] at hv
    rcases List.mem_append.mp hv with hvb | hvt
    · have hb := fetchAll_error fetchB e b hallb ⟨v, hvb, hverr⟩
      simp [runBatchReqs, hb]
    · rcases fetchAll_split fetchB e b hallb with hb | ⟨rs, hb⟩
      · simp [runBatchReqs, hb]
      · have ht := ih hallt ⟨v, hvt, hverr⟩
        simp [runBatchReqs, hb, ht]

/-! Helper lemmas about the codecs. -/

theorem lookupField_append (fs extra : List (String × Json)) (key : String) (v : Json)
    (h : lookupField fs key = some v) :
    lookupField (fs ++ extra) key = some v := by
  induction fs with
  | nil => simp [lookupField] at h
  | cons kv fs ih =>
    obtain ⟨k1, v1⟩ := kv
    rw [List.cons_append]
    by_cases hk : k1 = key
    · simp only [lookupField, if_pos hk] at h ⊢; exact h
    · simp only [lookupField, if_neg hk] at h ⊢; exact ih h

theorem decodeStrings_length (cs : List Json) (ss : List String)
    (h : decodeStrings cs = some ss) : ss.length = cs.length := by
  induction cs generalizing ss with
  | nil => simp [decodeStrings] at h; simp [← h]
  | cons x xs ih =>
    match x with
    | Json.str s =>
      simp only [decodeStrings] at h
      cases hxs : decodeStrings xs with
      | none => rw [hxs] at h; simp at h
      | some ss' =>
        rw [hxs] at h
        simp at h
        rw [← h]
        simp [ih ss' hxs]
    | Json.num n => simp [decodeStrings] at h
    | Json.bool b => simp [decodeStrings] at h
    | Json.null => simp [decodeStrings] at h
    | Json.arr l => simp [decodeStrings] at h
    | Json.obj l => simp [decodeStrings] at h

theorem TextDetailCodec.decode_inv (j : Json) (d : TextDetail)
    (h : TextDetailCodec.decode j = some d) :
    j.getField "language" = some (Json.str config.textsLang) ∧
    j.getField "children" = some (Json.arr []) ∧
    j.getField "txt" = some (Json.str d.txt) ∧
    d.language = config.textsLang ∧ d.children = [] := by
  unfold TextDetailCodec.decode at h
  split at h
  next lang cs t hl hch ht =>
    split at h
    next hlang =>
      cases hcs : decodeStrings cs with
      | none => rw [hcs] at h; simp at h
      | some children =>
        rw [hcs] at h
        simp only at h
        split at h
        next hlen =>
          have hchildren : children = [] := List.length_eq_zero.mp hlen
          have hcsnil : cs = [] := by
            have := decodeStrings_length cs children hcs
            rw [hchildren] at this
            exact List.length_eq_zero.mp this.symm
          have hd : d = ⟨lang, children, t⟩ := by
            cases h; rfl
          subst hd hlang hchildren hcsnil
          exact ⟨hl, hch, ht, rfl, rfl⟩
        next => simp at h
    next => simp at h
  next => simp at h

theorem TextDetailCodec.decode_construct (j : Json) (s : String)
    (hl : j.getField "language" = some (Json.str config.textsLang))
    (hch : j.getField "children" = some (Json.arr []))
    (ht : j.getField "txt" = some (Json.str s)) :
    TextDetailCodec.decode j = some ⟨config.textsLang, [], s⟩ := by
  unfold TextDetailCodec.decode
  rw [hl, hch, ht]
  simp [decodeStrings]

theorem decodeTextEntry_inv (j : Json) (e : TextEntry)
    (h : decodeTextEntry j = some e) :
    j.getField "slug" = some (Json.str e.slug) := by
  unfold decodeTextEntry at h
  split at h
  next s hs =>
    cases h
    exact hs
  next => simp at h

theorem decodeTextEntry_construct (j : Json) (s : String)
    (hs : j.getField "slug" = some (Json.str s)) :
    decodeTextEntry j = some ⟨s⟩ := by
  unfold decodeTextEntry
  rw [hs]

/-- The value `filterReduce` appends for one response, when it appends one. -/
def extractTxt (r : AxiosResponse) : Option Json :=
  (TextDetailCodec.decode r.data).map fun d => Json.str d.txt

theorem foldl_filterReduce (rs : List AxiosResponse) (acc : List Json) :
    rs.foldl filterReduce acc = acc ++ rs.filterMap extractTxt := by
  induction rs generalizing acc with
  | nil => simp
  | cons r rs ih =>
    rw [List.foldl_cons, ih]
    cases h : TextDetailCodec.decode r.data with
    | none => simp [filterReduce, extractTxt, h, List.filterMap_cons]
    | some d => simp [filterReduce, extractTxt, h, List.filterMap_cons]

/-! The claims. -/

/-- C1: for every target list and concurrency at least 1, the batch loop of
`makeConcurrentHttpsReqs` partitions the list into consecutive batches:
their number is the ceiling of length over concurrency, every batch has
between 1 and `concurrency` elements, every batch except possibly the last
has exactly `concurrency` elements, and their concatenation in order is the
original list; for an empty target list zero batches are formed, no request
is issued, and the call returns an empty accumulator (with an empty
progress trace) regardless of the transport and of the optional
parameters. -/
theorem batch_partitioning (c : Nat) (urls : List String) (hc : 1 ≤ c) :
    (mkBatches c urls).length = (urls.length + c - 1) / c ∧
    (∀ b ∈ mkBatches c urls, 1 ≤ b.length ∧ b.length ≤ c) ∧
    (∀ b ∈ (mkBatches c urls).dropLast, b.length = c) ∧
    (mkBatches c urls).flatten = urls ∧
    mkBatches c ([] : List String) = [] ∧
    (∀ (http : String → Nat → Except String AxiosResponse) processData formatUrl,
      makeConcurrentHttpsReqs http [] c processData formatUrl = Except.ok ([], []) ∧
      reqCount (fun url => http ((formatUrl.getD id) url) batchReqTimeoutMs)
        (mkBatches c []) = 0) := by
  have hc0 : c ≠ 0 := by omega
  refine ⟨mkBatches_length hc0 urls, ?_, mkBatches_dropLast hc0 urls,
    mkBatches_flatten hc0 urls, rfl, ?_⟩
  · intro b hb
    have hmem := mkBatches_mem hc0 urls b hb
    exact ⟨by have := List.length_pos.mpr hmem.1; omega, hmem.2⟩
  · intro http processData formatUrl
    cases processData <;> exact ⟨rfl, rfl⟩

/-- C1 witness: the partition facts instantiated for a five-element list
with concurrency two, and the empty-list call evaluated with an
always-failing transport. -/
theorem batch_partitioning_check :
    (mkBatches 2 ["a", "b", "c", "d", "e"]).length = (5 + 2 - 1) / 2 ∧
    (mkBatches 2 ["a", "b", "c", "d", "e"]).flatten = ["a", "b", "c", "d", "e"] ∧
    makeConcurrentHttpsReqs (fun _ _ => Except.error "net") [] 2 none none =
      Except.ok ([], []) := by
  have h := batch_partitioning 2 ["a", "b", "c", "d", "e"] (by omega)
  exact ⟨by simpa using h.1, h.2.2.2.1, (h.2.2.2.2.2 (fun _ _ => Except.error "net") none none).1⟩

/-- C2: for every target list, concurrency at least 1, and URL formatter,
when every request succeeds and no `processData` reduction function is
supplied, `makeConcurrentHttpsReqs` returns exactly the sequence of raw
response bodies (the `data` field of each response), one per target, in
the order of the input target list (batch-major order). -/
theorem passthrough_fold
    (http : String → Nat → Except String AxiosResponse)
    (urls : List String) (c : Nat)
    (formatUrl : Option (String → String)) (resp : String → AxiosResponse)
    (hc : 1 ≤ c)
    (hok : ∀ u ∈ urls, http ((formatUrl.getD id) u) batchReqTimeoutMs = Except.ok (resp u)) :
    makeConcurrentHttpsReqs http urls c none formatUrl =
      Except.ok (urls.map fun u => (resp u).data, (mkBatches c urls).map List.length) ∧
    (urls.map fun u => (resp u).data).length = urls.length := by
  have hc0 : c ≠ 0 := by omega
  have hflat := mkBatches_flatten hc0 urls
  have hrun : runBatchReqs (fun url => http ((formatUrl.getD id) url) batchReqTimeoutMs)
      (mkBatches c urls) = Except.ok ((mkBatches c urls).flatten.map resp) :=
    runBatchReqs_ok _ resp _ (fun u hu => hok u (by rw [← hflat]; exact hu))
  rw [hflat] at hrun
  refine ⟨?_, by simp⟩
  simp [makeConcurrentHttpsReqs, hrun, List.map_map, Function.comp]

/-- C2 witness: a three-target call with concurrency two and no reduction
function returns the three response bodies in input order. -/
theorem passthrough_fold_check :
    makeConcurrentHttpsReqs (fun url _ => Except.ok ⟨url, Json.str url⟩)
        ["a", "b", "c"] 2 none none =
      Except.ok ([Json.str "a", Json.str "b", Json.str "c"], [2, 1]) := by
  have h := (passthrough_fold (fun url _ => Except.ok ⟨url, Json.str url⟩)
    ["a", "b", "c"] 2 none (fun u => ⟨u, Json.str u⟩) (by omega) (fun u _ => rfl)).1
  exact h.trans (by rfl)

/-- C3: for every list of detail responses, the accumulator produced by the
collection-filtering reduction function is exactly the `txt` values, in
input order, of the responses accepted by `TextDetailCodec`; its length is
at most the number of responses; and a body is accepted by the codec if
and only if its `language` field is the configured language literal, its
`children` field is an empty array, and its `txt` field is a string, with
the accepted field values extractable unchanged. -/
theorem filtering_fold (rs : List AxiosResponse) :
    List.foldl filterReduce [] rs = rs.filterMap extractTxt ∧
    (List.foldl filterReduce [] rs).length ≤ rs.length ∧
    (∀ j : Json, (∃ d, TextDetailCodec.decode j = some d) ↔
      (j.getField "language" = some (Json.str config.textsLang) ∧
       j.getField "children" = some (Json.arr []) ∧
       ∃ s, j.getField "txt" = some (Json.str s))) ∧
    (∀ (j : Json) (d : TextDetail), TextDetailCodec.decode j = some d →
      d.language = config.textsLang ∧ d.children = [] ∧
      j.getField "txt" = some (Json.str d.txt)) := by
  have hfold := foldl_filterReduce rs []
  rw [List.nil_append] at hfold
  refine ⟨hfold, ?_, ?_, ?_⟩
  · rw [hfold]
    exact List.length_filterMap_le _ _
  · intro j
    constructor
    · rintro ⟨d, hd⟩
      obtain ⟨hl, hch, ht, _, _⟩ := TextDetailCodec.decode_inv j d hd
      exact ⟨hl, hch, d.txt, ht⟩
    · rintro ⟨hl, hch, s, ht⟩
      exact ⟨_, TextDetailCodec.decode_construct j s hl hch ht⟩
  · intro j d hd
    obtain ⟨_, _, ht, hlang, hchn⟩ := TextDetailCodec.decode_inv j d hd
    exact ⟨hlang, hchn, ht⟩

/-- C3 witness: folding the filtering reduction over three responses, of
which the middle one has a non-empty child list, keeps exactly the two
accepted `txt` values in order; acceptance of the first body follows from
the characterization applied at it. -/
theorem filtering_fold_check :
    List.foldl filterReduce []
        [⟨"u1", Json.obj [("language", Json.str "pol"), ("children", Json.arr []),
            ("txt", Json.str "X")]⟩,
         ⟨"u2", Json.obj [("language", Json.str "pol"),
            ("children", Json.arr [Json.str "kid"]), ("txt", Json.str "Y")]⟩,
         ⟨"u3", Json.obj [("language", Json.str "pol"), ("children", Json.arr []),
            ("txt", Json.str "Z")]⟩] = [Json.str "X", Json.str "Z"] ∧
    (∃ d, TextDetailCodec.decode (Json.obj [("language", Json.str "pol"),
        ("children", Json.arr []), ("txt", Json.str "X")]) = some d) := by
  constructor
  · exact (filtering_fold _).1.trans (by rfl)
  · exact ((filtering_fold []).2.2.1 _).mpr ⟨rfl, rfl, "X", rfl⟩

/-- C4: for every target list and concurrency at least 1, if the request of
one target fails (the transport returns an error, covering network errors,
non-success statuses and timeouts) while every other request succeeds, the
entire `makeConcurrentHttpsReqs` call fails with that error and returns no
partial accumulator. -/
theorem failure_atomicity
    (http : String → Nat → Except String AxiosResponse)
    (urls : List String) (c : Nat)
    (processData : Option (List Json → AxiosResponse → List Json))
    (formatUrl : Option (String → String))
    (u e : String) (hc : 1 ≤ c) (hu : u ∈ urls)
    (herr : http ((formatUrl.getD id) u) batchReqTimeoutMs = Except.error e)
    (hok : ∀ v ∈ urls, v ≠ u →
      ∃ r, http ((formatUrl.getD id) v) batchReqTimeoutMs = Except.ok r) :
    makeConcurrentHttpsReqs http urls c processData formatUrl = Except.error e := by
  have hc0 : c ≠ 0 := by omega
  have hflat := mkBatches_flatten hc0 urls
  have hall : ∀ v ∈ (mkBatches c urls).flatten,
      http ((formatUrl.getD id) v) batchReqTimeoutMs = Except.error e ∨
      ∃ r, http ((formatUrl.getD id) v) batchReqTimeoutMs = Except.ok r := by
    intro v hv
    rw [hflat] at hv
    by_cases hvu : v = u
    · subst hvu; exact Or.inl herr
    · exact Or.inr (hok v hv hvu)
  have hex : ∃ v ∈ (mkBatches c urls).flatten,
      http ((formatUrl.getD id) v) batchReqTimeoutMs = Except.error e :=
    ⟨u, by rw [hflat]; exact hu, herr⟩
  have hrun := runBatchReqs_error _ e (mkBatches c urls) hall hex
  simp [makeConcurrentHttpsReqs, hrun]

/-- C4 witness: with two targets in one batch of two where only the second
request fails, the whole call fails with that request's error. -/
theorem failure_atomicity_check :
    makeConcurrentHttpsReqs
        (fun url _ => if url = "b" then Except.error "net"
          else Except.ok ⟨url, Json.null⟩)
        ["a", "b"] 2 none none = Except.error "net" := by
  apply failure_atomicity _ _ _ _ _ "b" "net" (by omega) (by simp)
  · rfl
  · intro v hv hne
    simp only [List.mem_cons, List.not_mem_nil, or_false] at hv
    rcases hv with rfl | rfl
    · exact ⟨⟨"a", Json.null⟩, by simp⟩
    · exact absurd rfl hne

/-- C5: a shape-validation failure on the top-level works-list response
raises the error that terminates the run, with the single works-list
request as the only effect and no downstream processing; whereas a
shape-validation failure on an individual work's detail response is
recovered by omission: the offending response contributes nothing to the
accumulator and the fold of the remaining responses is unchanged. -/
theorem two_tier_policy :
    (∀ (http : String → Nat → Except String AxiosResponse) (worksRes : AxiosResponse),
      http worksListUrl worksListTimeoutMs = Except.ok worksRes →
      TextsDataCodec.decode worksRes.data = none →
      mainIIFE false http =
        (⟨true, 1, 0⟩, Except.error "invalid texts data req response format")) ∧
    (∀ (rs1 rs2 : List AxiosResponse) (r : AxiosResponse),
      TextDetailCodec.decode r.data = none →
      List.foldl filterReduce [] (rs1 ++ r :: rs2) =
        List.foldl filterReduce [] (rs1 ++ rs2)) := by
  constructor
  · intro http worksRes hok hdec
    simp [mainIIFE, hok, hdec]
  · intro rs1 rs2 r hdec
    rw [foldl_filterReduce, foldl_filterReduce]
    simp [List.filterMap_append, List.filterMap_cons, extractTxt, hdec]

/-- C5 witness: a transport whose works-list response body is `null` (which
fails `TextsDataCodec`) makes the run throw after the single works-list
request, while a detail response with body `null` (which fails
`TextDetailCodec`) is simply dropped from the fold. -/
theorem two_tier_policy_check :
    mainIIFE false (fun _ _ => Except.ok ⟨"", Json.null⟩) =
      (⟨true, 1, 0⟩, Except.error "invalid texts data req response format") ∧
    List.foldl filterReduce [] [⟨"u", Json.null⟩] = List.foldl filterReduce [] [] := by
  exact ⟨two_tier_policy.1 _ ⟨"", Json.null⟩ rfl rfl,
    two_tier_policy.2 [] [] ⟨"u", Json.null⟩ rfl⟩

/-- C6: for every target list and concurrency at least 1, on a successful
run the supplied `updateProgress` callback is invoked exactly once per
batch, after that batch settles, with the number of targets of that batch:
the trace of increments is the list of batch sizes, its length is the
number of batches (the ceiling of length over concurrency), its sum is the
total number of targets, and every increment is between 1 and the
concurrency. -/
theorem progress_reporting
    (http : String → Nat → Except String AxiosResponse)
    (urls : List String) (c : Nat)
    (processData : Option (List Json → AxiosResponse → List Json))
    (formatUrl : Option (String → String)) (resp : String → AxiosResponse)
    (hc : 1 ≤ c)
    (hok : ∀ u ∈ urls, http ((formatUrl.getD id) u) batchReqTimeoutMs = Except.ok (resp u)) :
    (makeConcurrentHttpsReqs http urls c processData formatUrl).toOption.map Prod.snd =
      some ((mkBatches c urls).map List.length) ∧
    ((mkBatches c urls).map List.length).length = (urls.length + c - 1) / c ∧
    ((mkBatches c urls).map List.length).sum = urls.length ∧
    ∀ n ∈ (mkBatches c urls).map List.length, 1 ≤ n ∧ n ≤ c := by
  have hc0 : c ≠ 0 := by omega
  have hflat := mkBatches_flatten hc0 urls
  have hrun : runBatchReqs (fun url => http ((formatUrl.getD id) url) batchReqTimeoutMs)
      (mkBatches c urls) = Except.ok ((mkBatches c urls).flatten.map resp) :=
    runBatchReqs_ok _ resp _ (fun u hu => hok u (by rw [← hflat]; exact hu))
  refine ⟨?_, ?_, ?_, ?_⟩
  · simp [makeConcurrentHttpsReqs, hrun]
    exact ⟨_, rfl⟩
  · rw [List.length_map]
    exact mkBatches_length hc0 urls
  · rw [← List.length_flatten, hflat]
  · intro n hn
    obtain ⟨b, hb, rfl⟩ := List.mem_map.mp hn
    have hmem := mkBatches_mem hc0 urls b hb
    exact ⟨by have := List.length_pos.mpr hmem.1; omega, hmem.2⟩

/-- C6 witness: the concrete instance of the claim: a five-target list with
concurrency two produces exactly three progress increments, 2, 2 and 1,
summing to five. -/
theorem progress_reporting_check :
    (makeConcurrentHttpsReqs (fun url _ => Except.ok ⟨url, Json.null⟩)
        ["a", "b", "c", "d", "e"] 2 none none).toOption.map Prod.snd =
      some [2, 2, 1] ∧
    ([2, 2, 1] : List Nat).length = 3 ∧ ([2, 2, 1] : List Nat).sum = 5 := by
  have h := progress_reporting (fun url _ => Except.ok ⟨url, Json.null⟩)
    ["a", "b", "c", "d", "e"] 2 none none (fun u => ⟨u, Json.null⟩)
    (by omega) (fun u _ => rfl)
  exact ⟨h.1.trans (by rfl), rfl, rfl⟩

/-- C7: if the output directory already exists at the start of a run, the
entire run is a no-op: it completes normally with zero HTTP requests
issued, zero files written and no directory created, for every transport. -/
theorem run_idempotence (http : String → Nat → Except String AxiosResponse) :
    mainIIFE true http = (noEffects, Except.ok ()) ∧
    noEffects.httpReqs = 0 ∧ noEffects.filesWritten = 0 ∧
    noEffects.dirCreated = false := ⟨rfl, rfl, rfl, rfl⟩

/-- C7 witness: the no-op run evaluated with an always-failing transport:
even then nothing is requested and nothing is written. -/
theorem run_idempotence_check :
    mainIIFE true (fun _ _ => Except.error "net") = (noEffects, Except.ok ()) ∧
    noEffects.httpReqs = 0 ∧ noEffects.filesWritten = 0 ∧
    noEffects.dirCreated = false :=
  run_idempotence (fun _ _ => Except.error "net")

/-- C8 counterexample: the claim that the detail-filtering (metadata
lookup) requests carry a shorter timeout than the body-download requests is
false: both call sites go through `makeConcurrentHttpsReqs`, whose
`axios.get` hardcodes the same 10000 ms timeout. -/
theorem per_phase_timeouts_counterexample :
    detailFilterTimeoutMs = bodyDownloadTimeoutMs ∧
    ¬ detailFilterTimeoutMs < bodyDownloadTimeoutMs := by
  exact ⟨rfl, by decide⟩

/-- C8 (amended): every request carries a fixed timeout; the
detail-filtering and body-download requests share the same 10000 ms timeout
(both are issued by `makeConcurrentHttpsReqs`), and the request with the
shorter, 5000 ms, timeout is the top-level works-list request. -/
theorem per_phase_timeouts :
    detailFilterTimeoutMs = 10000 ∧ bodyDownloadTimeoutMs = 10000 ∧
    batchReqTimeoutMs = 10000 ∧ worksListTimeoutMs = 5000 ∧
    worksListTimeoutMs < detailFilterTimeoutMs ∧
    worksListTimeoutMs < bodyDownloadTimeoutMs := by
  exact ⟨rfl, rfl, rfl, rfl, by decide, by decide⟩

/-- C9: for a non-empty target list, the batch loop
`for (let i = 0; i < urls.length; i += concurrency)` terminates if and only
if the concurrency is at least 1; for zero or negative concurrency the loop
index never reaches the list length, so the loop never exits and the stated
precondition `concurrency > 0` is necessary. -/
theorem loop_termination (len : Nat) (c : Int) (h : 0 < len) :
    (loopTerminates len c ↔ 1 ≤ c) ∧
    (c ≤ 0 → ∀ n : Nat, loopIndex c n < (len : Int)) := by
  have hnever : c ≤ 0 → ∀ n : Nat, loopIndex c n < (len : Int) := by
    intro hc n
    have h1 : (n : Int) * c ≤ (n : Int) * 0 :=
      mul_le_mul_of_nonneg_left hc (Int.natCast_nonneg n)
    have h2 : loopIndex c n ≤ 0 := by simpa [loopIndex] using h1
    have h3 : (0 : Int) < (len : Int) := by exact_mod_cast h
    omega
  refine ⟨⟨?_, ?_⟩, hnever⟩
  · intro ⟨n, hn⟩
    by_contra hc
    push_neg at hc
    exact hn (hnever (by omega) n)
  · intro hc
    refine ⟨len, ?_⟩
    simp only [loopIndex, not_lt]
    calc (len : Int) = (len : Int) * 1 := by ring
      _ ≤ (len : Int) * c := mul_le_mul_of_nonneg_left hc (Int.natCast_nonneg len)

/-- C9 witness: with three targets the loop terminates for concurrency 2,
and for concurrency 0 the loop index is still below the length after five
iterations. -/
theorem loop_termination_check :
    loopTerminates 3 2 ∧ loopIndex 0 5 < (3 : Int) := by
  exact ⟨(loop_termination 3 2 (by omega)).1.mpr (by omega),
    (loop_termination 3 0 (by omega)).2 (by omega) 5⟩

/-- C10: a payload whose `language`, `children` and `txt` fields satisfy
the detail contract is still accepted, with the same decoded value, when it
carries additional fields not named in the contract; likewise a works-list
entry needs only its string `slug` field, with any extra fields ignored. -/
theorem extra_fields_tolerance :
    (∀ (fs extra : List (String × Json)) (d : TextDetail),
      (∀ kv ∈ extra, kv.1 ≠ "language" ∧ kv.1 ≠ "children" ∧ kv.1 ≠ "txt") →
      TextDetailCodec.decode (Json.obj fs) = some d →
      TextDetailCodec.decode (Json.obj (fs ++ extra)) = some d) ∧
    (∀ (fs extra : List (String × Json)) (e : TextEntry),
      (∀ kv ∈ extra, kv.1 ≠ "slug") →
      decodeTextEntry (Json.obj fs) = some e →
      decodeTextEntry (Json.obj (fs ++ extra)) = some e) := by
  constructor
  · intro fs extra d _ h
    obtain ⟨hl, hch, ht, hlang, hchn⟩ := TextDetailCodec.decode_inv _ _ h
    have hl' : (Json.obj (fs ++ extra)).getField "language" =
        some (Json.str config.textsLang) := lookupField_append fs extra _ _ hl
    have hch' : (Json.obj (fs ++ extra)).getField "children" =
        some (Json.arr []) := lookupField_append fs extra _ _ hch
    have ht' : (Json.obj (fs ++ extra)).getField "txt" =
        some (Json.str d.txt) := lookupField_append fs extra _ _ ht
    have hcon := TextDetailCodec.decode_construct _ d.txt hl' hch' ht'
    have hd : d = ⟨config.textsLang, [], d.txt⟩ := by
      obtain ⟨dl, dc, dt⟩ := d
      simp only at hlang hchn
      rw [hlang, hchn]
    rw [hd]
    exact hcon
  · intro fs extra e _ h
    have hs := decodeTextEntry_inv _ _ h
    have hs' : (Json.obj (fs ++ extra)).getField "slug" =
        some (Json.str e.slug) := lookupField_append fs extra _ _ hs
    have hcon := decodeTextEntry_construct _ e.slug hs'
    obtain ⟨s⟩ := e
    exact hcon

/-- C10 witness: a detail payload with an extra `title` field and a
works-list entry with an extra `href` field both decode exactly as without
the extra fields. -/
theorem extra_fields_tolerance_check :
    TextDetailCodec.decode (Json.obj [("language", Json.str "pol"),
        ("children", Json.arr []), ("txt", Json.str "body"),
        ("title", Json.str "t")]) = some ⟨"pol", [], "body"⟩ ∧
    decodeTextEntry (Json.obj [("slug", Json.str "a"), ("href", Json.str "h")]) =
      some ⟨"a"⟩ := by
  constructor
  · exact extra_fields_tolerance.1
      [("language", Json.str "pol"), ("children", Json.arr []), ("txt", Json.str "body")]
      [("title", Json.str "t")] ⟨"pol", [], "body"⟩
      (by intro kv hkv; simp only [List.mem_singleton] at hkv; subst hkv
          exact ⟨by decide, by decide, by decide⟩) rfl
  · exact extra_fields_tolerance.2 [("slug", Json.str "a")]
      [("href", Json.str "h")] ⟨"a"⟩
      (by intro kv hkv; simp only [List.mem_singleton] at hkv; subst hkv; decide) rfl

end Mickiewicz
